import Mathlib

/-!
Verification of the Meal-Counter extraction, categorization, aggregation and
layout engine (`meal_counter_automation.py`, duplicated in `app.py`).

Lines of a page are modelled as lists of characters (`Line`), a page's text as
a list of lines, and the per-page `defaultdict(int)` as an association list
from category names to accumulated quantities, updated in insertion order.
Floating point page coordinates are modelled as exact rationals.
-/

/-- Lines of text are modelled as lists of characters. -/
abbrev Line := List Char

/-- Conversion from a Lean string literal to a `Line`. -/
def chars (s : String) : Line := s.data

/-- Mirrors Python `str.lower()` (ASCII-relevant range). -/
def lowerList (cs : Line) : Line := cs.map Char.toLower

/-- Mirrors Python `str.strip()`: drop leading and trailing whitespace. -/
def stripChars (cs : Line) : Line :=
  ((cs.dropWhile Char.isWhitespace).reverse.dropWhile Char.isWhitespace).reverse

/-- `leadsWith pat cs` holds when `pat` is an initial segment of `cs`. -/
def leadsWith : Line → Line → Bool
  | [], _ => true
  | _ :: _, [] => false
  | p :: ps, c :: cs => p == c && leadsWith ps cs

/-- Mirrors Python substring containment `pat in hay`. -/
def hasSubstr : Line → Line → Bool
  | [], pat => leadsWith pat []
  | c :: t, pat => leadsWith pat (c :: t) || hasSubstr t pat

/-- Mirrors `re.match(r'^\d+$', s)` on an already stripped string. -/
def isBareInt (cs : Line) : Bool := !cs.isEmpty && cs.all Char.isDigit

/-- Mirrors Python `int(s)` on a digit string. -/
def natOfDigits (cs : Line) : Nat := cs.foldl (fun a c => a * 10 + (c.toNat - 48)) 0

/-- A regex word character `\w` (ASCII-relevant range). -/
def isWordChar (c : Char) : Bool := c.isAlphanum || c == '_'

/-- Mirrors `re.match(r'\d{2}\s+\w+', s)`: two digits, at least one whitespace
character, then a word character (a prefix match, so trailing text is free). -/
def matchDayMonth : Line → Bool
  | d1 :: d2 :: c :: cs =>
    d1.isDigit && d2.isDigit && c.isWhitespace &&
      (match (c :: cs).dropWhile Char.isWhitespace with
       | [] => false
       | w :: _ => isWordChar w)
  | _ => false

/-- Mirrors `re.match(r'\d{4}$', s)` on a stripped string: exactly four digits. -/
def matchYear : Line → Bool
  | [a, b, c, d] => a.isDigit && b.isDigit && c.isDigit && d.isDigit
  | _ => false

/-- Mirrors `re.match(r'\d{2}/\d{2}/\d{2}', s)` (a prefix match). -/
def matchDateSlash : Line → Bool
  | d1 :: d2 :: s1 :: d3 :: d4 :: s2 :: d5 :: d6 :: _ =>
    d1.isDigit && d2.isDigit && s1 == '/' && d3.isDigit && d4.isDigit &&
      s2 == '/' && d5.isDigit && d6.isDigit
  | _ => false

/-- The stop-word list of the line-noise check (source line 45). -/
def stopWords : List Line :=
  [chars "Date", chars "School", chars "Meal", chars "Quantity", chars "Grade",
   chars "Class", chars "Diner", chars "Cycle 5"]

/-- The stop-word list of the continuation check (source line 62): it lacks
the entry for the cycle label. -/
def contStopWords : List Line :=
  [chars "Date", chars "School", chars "Meal", chars "Quantity", chars "Grade",
   chars "Class", chars "Diner"]

/-- The fixed food keyword list (source line 57). -/
def mealKeywords : List Line :=
  [chars "pasta", chars "pizza", chars "burger", chars "salad", chars "soup",
   chars "rice", chars "chicken", chars "beef", chars "lentil", chars "fish"]

/-- `MealCounter.categorize_meal`, source lines 21-34. -/
def categorize_meal (meal_name : Line) : Line :=
  let meal_lower := lowerList meal_name
  if hasSubstr meal_lower (chars "beef") || hasSubstr meal_lower (chars "beefy") then
    chars "Beef Meal"
  else if hasSubstr meal_lower (chars "lentil") then
    chars "Lentil Meal"
  else if hasSubstr meal_lower (chars "chicken") then
    chars "Chicken Meal"
  else if hasSubstr meal_lower (chars "vegetarian") || hasSubstr meal_lower (chars "veggie") then
    chars "Vegetarian Meal"
  else if hasSubstr meal_lower (chars "fish") then
    chars "Fish Meal"
  else
    stripChars meal_name

/-- The per-page accumulator: the `defaultdict(int)` of category names to
accumulated quantities, kept in insertion order. -/
abbrev MealMap := List (Line × Nat)

/-- Mirrors `meal_counts[meal_category] += quantity` on a `defaultdict(int)`:
bump an existing key in place, or append a fresh key at the end. -/
def addCount (mc : MealMap) (k : Line) (q : Nat) : MealMap :=
  match mc with
  | [] => [(k, q)]
  | (k2, v) :: t => if k2 = k then (k2, v + q) :: t else (k2, v) :: addCount t k q

/-- The quantity lookahead of source lines 66-73: scan up to `fuel` following
lines for the first stripped bare-integer line whose value lies in `[1,100]`;
out-of-range integers are skipped; `0` when none qualifies. -/
def lookQuantity : List Line → Nat → Nat
  | _, 0 => 0
  | [], _ + 1 => 0
  | x :: xs, fuel + 1 =>
    let qty_line := stripChars x
    if isBareInt qty_line then
      let qty := natOfDigits qty_line
      if 1 ≤ qty ∧ qty ≤ 100 then qty else lookQuantity xs fuel
    else lookQuantity xs fuel

/-- The continuation condition of source line 62 on the stripped next line:
non-empty, not a bare integer, not a day/month label, not a stop-word. -/
def contOk (next_line : Line) : Bool :=
  !next_line.isEmpty && !isBareInt next_line && !matchDayMonth next_line &&
    !contStopWords.contains next_line

/-- The name-continuation step of source lines 60-64: returns the (possibly
extended) meal name together with the lines remaining after the consumed
continuation line, if any. -/
def contStep (line : Line) (rest : List Line) : Line × List Line :=
  match rest with
  | [] => (line, [])
  | n0 :: r2 =>
    if contOk (stripChars n0) then (line ++ ' ' :: stripChars n0, r2)
    else (line, n0 :: r2)

/-- The `while` loop of `extract_meals_from_page` (source lines 41-79), with
the accumulator made explicit and a fuel argument bounding the number of loop
iterations (each iteration consumes at least one line, so `lines.length` fuel
always suffices; see `extractLoop`). Each step strips the current line, skips
the three classes of noise lines, and on a food-keyword line merges at most
one continuation line via `contStep`, runs the 4-line quantity lookahead, and
accumulates the categorized record when a valid quantity was found. -/
def extractLoopF : Nat → List Line → MealMap → MealMap
  | 0, _, meal_counts => meal_counts
  | _ + 1, [], meal_counts => meal_counts
  | fuel + 1, l0 :: rest, meal_counts =>
    let line := stripChars l0
    if line.isEmpty || stopWords.contains line then
      extractLoopF fuel rest meal_counts
    else if matchDayMonth line || matchYear line || matchDateSlash line then
      extractLoopF fuel rest meal_counts
    else if hasSubstr (lowerList line) (chars "total") then
      extractLoopF fuel rest meal_counts
    else if mealKeywords.any (fun kw => hasSubstr (lowerList line) kw) then
      let p := contStep line rest
      let quantity := lookQuantity p.2 4
      if 0 < quantity then
        extractLoopF fuel p.2 (addCount meal_counts (categorize_meal p.1) quantity)
      else
        extractLoopF fuel p.2 meal_counts
    else
      extractLoopF fuel rest meal_counts

/-- The loop of `extract_meals_from_page`, started with adequate fuel. -/
def extractLoop (lines : List Line) (meal_counts : MealMap) : MealMap :=
  extractLoopF lines.length lines meal_counts

/-- `MealCounter.extract_meals_from_page` on the page's line sequence. -/
def extract_meals_from_page (lines : List Line) : MealMap :=
  extractLoop lines []

/-- The list of `(name, quantity)` records the loop of
`extract_meals_from_page` assembles, before aggregation: same branch
structure as `extractLoopF`, recording instead of accumulating. -/
def extractRecordsF : Nat → List Line → List (Line × Nat)
  | 0, _ => []
  | _ + 1, [] => []
  | fuel + 1, l0 :: rest =>
    let line := stripChars l0
    if line.isEmpty || stopWords.contains line then
      extractRecordsF fuel rest
    else if matchDayMonth line || matchYear line || matchDateSlash line then
      extractRecordsF fuel rest
    else if hasSubstr (lowerList line) (chars "total") then
      extractRecordsF fuel rest
    else if mealKeywords.any (fun kw => hasSubstr (lowerList line) kw) then
      let p := contStep line rest
      let quantity := lookQuantity p.2 4
      if 0 < quantity then (p.1, quantity) :: extractRecordsF fuel p.2
      else extractRecordsF fuel p.2
    else
      extractRecordsF fuel rest

/-- The record list of a page, started with adequate fuel. -/
def extractRecords (lines : List Line) : List (Line × Nat) :=
  extractRecordsF lines.length lines

/-- One aggregation step: add one record's quantity to its category. -/
def aggStep (mc : MealMap) (r : Line × Nat) : MealMap :=
  addCount mc (categorize_meal r.1) r.2

lemma contStep_snd_length (line : Line) (rest : List Line) :
    (contStep line rest).2.length ≤ rest.length := by
  cases rest with
  | nil => simp [contStep]
  | cons n0 r2 =>
    by_cases h : contOk (stripChars n0) = true <;>
      simp [contStep, h, Nat.le_succ]

lemma extractLoopF_fuel : ∀ f1 f2 : Nat, ∀ lines : List Line, ∀ mc : MealMap,
    lines.length ≤ f1 → lines.length ≤ f2 →
    extractLoopF f1 lines mc = extractLoopF f2 lines mc := by
  intro f1
  induction f1 with
  | zero =>
    intro f2 lines mc h1 _
    have hnil : lines = [] := List.eq_nil_of_length_eq_zero (Nat.le_zero.mp h1)
    subst hnil
    cases f2 <;> rfl
  | succ f1 ih =>
    intro f2 lines mc h1 h2
    cases lines with
    | nil => cases f2 <;> rfl
    | cons l0 rest =>
      cases f2 with
      | zero => simp at h2
      | succ f2 =>
        simp only [List.length_cons, Nat.succ_le_succ_iff] at h1 h2
        have hp := contStep_snd_length (stripChars l0) rest
        simp only [extractLoopF]
        split_ifs <;> apply ih <;> omega

lemma extractRecordsF_fuel : ∀ f1 f2 : Nat, ∀ lines : List Line,
    lines.length ≤ f1 → lines.length ≤ f2 →
    extractRecordsF f1 lines = extractRecordsF f2 lines := by
  intro f1
  induction f1 with
  | zero =>
    intro f2 lines h1 _
    have hnil : lines = [] := List.eq_nil_of_length_eq_zero (Nat.le_zero.mp h1)
    subst hnil
    cases f2 <;> rfl
  | succ f1 ih =>
    intro f2 lines h1 h2
    cases lines with
    | nil => cases f2 <;> rfl
    | cons l0 rest =>
      cases f2 with
      | zero => simp at h2
      | succ f2 =>
        simp only [List.length_cons, Nat.succ_le_succ_iff] at h1 h2
        have hp := contStep_snd_length (stripChars l0) rest
        simp only [extractRecordsF]
        split_ifs <;> first | rfl | (congr 1; apply ih <;> omega) | (apply ih <;> omega)

@[simp] lemma extractLoop_nil (mc : MealMap) : extractLoop [] mc = mc := rfl

@[simp] lemma extractRecords_nil : extractRecords [] = [] := rfl

/-- The one-step unfolding of the extraction loop on a non-empty page. -/
lemma extractLoop_cons (l0 : Line) (rest : List Line) (mc : MealMap) :
    extractLoop (l0 :: rest) mc =
      (let line := stripChars l0
       if line.isEmpty || stopWords.contains line then extractLoop rest mc
       else if matchDayMonth line || matchYear line || matchDateSlash line then
         extractLoop rest mc
       else if hasSubstr (lowerList line) (chars "total") then extractLoop rest mc
       else if mealKeywords.any (fun kw => hasSubstr (lowerList line) kw) then
         let p := contStep line rest
         let quantity := lookQuantity p.2 4
         if 0 < quantity then
           extractLoop p.2 (addCount mc (categorize_meal p.1) quantity)
         else
           extractLoop p.2 mc
       else extractLoop rest mc) := by
  unfold extractLoop
  have hp := contStep_snd_length (stripChars l0) rest
  simp only [List.length_cons, extractLoopF]
  split_ifs <;> first | rfl | (apply extractLoopF_fuel <;> omega)

/-- The one-step unfolding of the record list on a non-empty page. -/
lemma extractRecords_cons (l0 : Line) (rest : List Line) :
    extractRecords (l0 :: rest) =
      (let line := stripChars l0
       if line.isEmpty || stopWords.contains line then extractRecords rest
       else if matchDayMonth line || matchYear line || matchDateSlash line then
         extractRecords rest
       else if hasSubstr (lowerList line) (chars "total") then extractRecords rest
       else if mealKeywords.any (fun kw => hasSubstr (lowerList line) kw) then
         let p := contStep line rest
         let quantity := lookQuantity p.2 4
         if 0 < quantity then (p.1, quantity) :: extractRecords p.2
         else extractRecords p.2
       else extractRecords rest) := by
  unfold extractRecords
  have hp := contStep_snd_length (stripChars l0) rest
  simp only [List.length_cons, extractRecordsF]
  split_ifs <;> first | rfl | (congr 1; apply extractRecordsF_fuel <;> omega) |
    (apply extractRecordsF_fuel <;> omega)

/-- The loop is the fold of the aggregation step over the record list. -/
lemma extractLoopF_eq_foldl : ∀ fuel : Nat, ∀ lines : List Line, ∀ mc : MealMap,
    extractLoopF fuel lines mc = (extractRecordsF fuel lines).foldl aggStep mc := by
  intro fuel
  induction fuel with
  | zero => intro lines mc; rfl
  | succ f ih =>
    intro lines mc
    cases lines with
    | nil => rfl
    | cons l0 rest =>
      simp only [extractLoopF, extractRecordsF]
      split_ifs <;> simp [ih, aggStep]

lemma extractLoop_eq_foldl (lines : List Line) (mc : MealMap) :
    extractLoop lines mc = (extractRecords lines).foldl aggStep mc :=
  extractLoopF_eq_foldl _ _ _

/-- The total quantity stored for key `k` in an accumulator. -/
def valueAt (mc : MealMap) (k : Line) : Nat :=
  ((mc.filter fun p => decide (p.1 = k)).map Prod.snd).sum

/-- The total quantity that a record list contributes to category `k`. -/
def contrib (rs : List (Line × Nat)) (k : Line) : Nat :=
  ((rs.filter fun r => decide (categorize_meal r.1 = k)).map Prod.snd).sum

@[simp] lemma valueAt_nil (k : Line) : valueAt [] k = 0 := rfl

lemma valueAt_cons (a : Line) (b : Nat) (tl : MealMap) (k : Line) :
    valueAt ((a, b) :: tl) k = (if a = k then b else 0) + valueAt tl k := by
  by_cases h : a = k <;> simp [valueAt, List.filter_cons, h]

lemma valueAt_addCount (mc : MealMap) (k2 : Line) (q : Nat) (k : Line) :
    valueAt (addCount mc k2 q) k = valueAt mc k + (if k2 = k then q else 0) := by
  induction mc with
  | nil => by_cases h : k2 = k <;> simp [addCount, valueAt_cons, h]
  | cons hd tl ih =>
    obtain ⟨a, b⟩ := hd
    by_cases h1 : a = k2
    · rw [show addCount ((a, b) :: tl) k2 q = (a, b + q) :: tl by simp [addCount, h1]]
      rw [valueAt_cons, valueAt_cons]
      by_cases h2 : a = k
      · have hk : k2 = k := h1.symm.trans h2
        simp [h2, hk]
        omega
      · have hk : ¬k2 = k := fun h => h2 (h1.trans h)
        simp [h2, hk]
    · rw [show addCount ((a, b) :: tl) k2 q = (a, b) :: addCount tl k2 q by
        simp [addCount, h1]]
      rw [valueAt_cons, valueAt_cons, ih]
      omega

lemma mem_fst_addCount (mc : MealMap) (k2 : Line) (q : Nat) (a : Line) :
    a ∈ (addCount mc k2 q).map Prod.fst ↔ a ∈ mc.map Prod.fst ∨ a = k2 := by
  induction mc with
  | nil => simp [addCount]
  | cons hd tl ih =>
    obtain ⟨c, b⟩ := hd
    by_cases h1 : c = k2
    · subst h1; simp [addCount]; tauto
    · simp [addCount, h1, ih]; tauto

lemma nodup_fst_addCount (mc : MealMap) (k2 : Line) (q : Nat)
    (h : (mc.map Prod.fst).Nodup) : ((addCount mc k2 q).map Prod.fst).Nodup := by
  induction mc with
  | nil => simp [addCount]
  | cons hd tl ih =>
    obtain ⟨c, b⟩ := hd
    simp only [List.map_cons, List.nodup_cons] at h
    by_cases h1 : c = k2
    · rw [show addCount ((c, b) :: tl) k2 q = (c, b + q) :: tl by simp [addCount, h1]]
      simpa using h
    · rw [show addCount ((c, b) :: tl) k2 q = (c, b) :: addCount tl k2 q by
        simp [addCount, h1]]
      simp only [List.map_cons, List.nodup_cons]
      refine ⟨?_, ih h.2⟩
      intro hmem
      rcases (mem_fst_addCount tl k2 q c).mp hmem with h2 | h2
      · exact h.1 h2
      · exact h1 h2

lemma pos_addCount (mc : MealMap) (k2 : Line) (q : Nat)
    (hm : ∀ p ∈ mc, 1 ≤ p.2) (hq : 1 ≤ q) : ∀ p ∈ addCount mc k2 q, 1 ≤ p.2 := by
  induction mc with
  | nil =>
    intro p hp
    simp only [addCount, List.mem_singleton] at hp
    subst hp
    exact hq
  | cons hd tl ih =>
    obtain ⟨c, b⟩ := hd
    intro p hp
    by_cases h1 : c = k2
    · rw [show addCount ((c, b) :: tl) k2 q = (c, b + q) :: tl by simp [addCount, h1]] at hp
      rcases List.mem_cons.mp hp with rfl | hp
      · have hb := hm (c, b) (by simp)
        simp only at hb ⊢
        omega
      · exact hm p (List.mem_cons_of_mem _ hp)
    · rw [show addCount ((c, b) :: tl) k2 q = (c, b) :: addCount tl k2 q by
        simp [addCount, h1]] at hp
      rcases List.mem_cons.mp hp with rfl | hp
      · exact hm (c, b) (by simp)
      · exact ih (fun r hr => hm r (List.mem_cons_of_mem _ hr)) p hp

lemma valueAt_foldl (rs : List (Line × Nat)) : ∀ mc : MealMap, ∀ k : Line,
    valueAt (rs.foldl aggStep mc) k = valueAt mc k + contrib rs k := by
  induction rs with
  | nil => simp [contrib]
  | cons r rs ih =>
    intro mc k
    simp only [List.foldl_cons]
    rw [ih]
    by_cases h : categorize_meal r.1 = k <;>
      simp [aggStep, valueAt_addCount, contrib, List.filter_cons, h]
    all_goals omega

lemma mem_fst_foldl (rs : List (Line × Nat)) : ∀ mc : MealMap, ∀ a : Line,
    a ∈ (rs.foldl aggStep mc).map Prod.fst ↔
      a ∈ mc.map Prod.fst ∨ ∃ r ∈ rs, categorize_meal r.1 = a := by
  induction rs with
  | nil => simp
  | cons r rs ih =>
    intro mc a
    simp only [List.foldl_cons, ih, aggStep, mem_fst_addCount, List.mem_cons]
    constructor
    · rintro ((h | h) | ⟨s, hs, hcat⟩)
      · exact Or.inl h
      · exact Or.inr ⟨r, Or.inl rfl, h.symm⟩
      · exact Or.inr ⟨s, Or.inr hs, hcat⟩
    · rintro (h | ⟨s, rfl | hs, hcat⟩)
      · exact Or.inl (Or.inl h)
      · exact Or.inl (Or.inr hcat.symm)
      · exact Or.inr ⟨s, hs, hcat⟩

lemma nodup_fst_foldl (rs : List (Line × Nat)) : ∀ mc : MealMap,
    (mc.map Prod.fst).Nodup → ((rs.foldl aggStep mc).map Prod.fst).Nodup := by
  induction rs with
  | nil => exact fun mc h => h
  | cons r rs ih =>
    intro mc h
    exact ih _ (nodup_fst_addCount _ _ _ h)

lemma pos_foldl (rs : List (Line × Nat)) (hr : ∀ r ∈ rs, 1 ≤ r.2) :
    ∀ mc : MealMap, (∀ p ∈ mc, 1 ≤ p.2) → ∀ p ∈ rs.foldl aggStep mc, 1 ≤ p.2 := by
  induction rs with
  | nil => exact fun mc hm => hm
  | cons r rs ih =>
    intro mc hm
    exact ih (fun s hs => hr s (by simp [hs])) _
      (pos_addCount _ _ _ hm (hr r (by simp)))

lemma extractRecordsF_pos : ∀ fuel : Nat, ∀ lines : List Line,
    ∀ r ∈ extractRecordsF fuel lines, 1 ≤ r.2 := by
  intro fuel
  induction fuel with
  | zero => intro lines r hr; simp [extractRecordsF] at hr
  | succ f ih =>
    intro lines r hr
    cases lines with
    | nil => simp [extractRecordsF] at hr
    | cons l0 rest =>
      simp only [extractRecordsF] at hr
      split_ifs at hr with h1 h2 h3 h4 h5
      · exact ih _ _ hr
      · exact ih _ _ hr
      · exact ih _ _ hr
      · rcases List.mem_cons.mp hr with rfl | hr
        · simpa using h5
        · exact ih _ _ hr
      · exact ih _ _ hr
      · exact ih _ _ hr

lemma extractRecords_pos (lines : List Line) : ∀ r ∈ extractRecords lines, 1 ≤ r.2 :=
  extractRecordsF_pos _ _

/-- A line qualifies as a quantity line: stripped, it is a bare integer
string whose value lies in `[1,100]`. -/
def inRangeQty (y : Line) : Bool :=
  isBareInt (stripChars y) && decide (1 ≤ natOfDigits (stripChars y)) &&
    decide (natOfDigits (stripChars y) ≤ 100)

/-- The integer value carried by a (stripped) line. -/
def qtyVal (y : Line) : Nat := natOfDigits (stripChars y)

lemma inRangeQty_pos (y : Line) (h : inRangeQty y = true) : 0 < qtyVal y := by
  simp only [inRangeQty, Bool.and_eq_true, decide_eq_true_eq] at h
  exact h.1.2

/-- The lookahead returns the value of the first in-range bare-integer line;
lines before it that are not in-range (including out-of-range bare integers)
are skipped. -/
lemma lookQuantity_first : ∀ pre : List Line, ∀ x : Line, ∀ suf : List Line,
    ∀ fuel : Nat, pre.length < fuel → (∀ y ∈ pre, inRangeQty y = false) →
    inRangeQty x = true → lookQuantity (pre ++ x :: suf) fuel = qtyVal x := by
  intro pre
  induction pre with
  | nil =>
    intro x suf fuel hf hpre hx
    cases fuel with
    | zero => omega
    | succ f =>
      simp only [inRangeQty, Bool.and_eq_true, decide_eq_true_eq] at hx
      simp only [List.nil_append, lookQuantity, hx.1.1, if_pos]
      rw [if_pos ⟨hx.1.2, hx.2⟩]
      rfl
  | cons y pre ih =>
    intro x suf fuel hf hpre hx
    cases fuel with
    | zero => omega
    | succ f =>
      have hy : inRangeQty y = false := hpre y (by simp)
      have hrec := ih x suf f (by simp only [List.length_cons] at hf; omega)
        (fun z hz => hpre z (by simp [hz])) hx
      simp only [inRangeQty, Bool.and_eq_false_iff] at hy
      by_cases hb : isBareInt (stripChars y) = true
      · have hrange : ¬(1 ≤ natOfDigits (stripChars y) ∧ natOfDigits (stripChars y) ≤ 100) := by
          rcases hy with (hy | hy) | hy
          · rw [hb] at hy; cases hy
          · intro hc; rw [decide_eq_true hc.1] at hy; cases hy
          · intro hc; rw [decide_eq_true hc.2] at hy; cases hy
        simp only [List.cons_append, lookQuantity, hb, if_pos, if_neg hrange]
        exact hrec
      · simp only [List.cons_append, lookQuantity]
        rw [if_neg hb]
        exact hrec

/-- When no line of the window is in-range the lookahead yields `0`. -/
lemma lookQuantity_none : ∀ l : List Line, ∀ fuel : Nat,
    (∀ y ∈ l.take fuel, inRangeQty y = false) → lookQuantity l fuel = 0 := by
  intro l
  induction l with
  | nil => intro fuel _; cases fuel <;> rfl
  | cons y t ih =>
    intro fuel h
    cases fuel with
    | zero => rfl
    | succ f =>
      have hy : inRangeQty y = false := h y (by simp)
      have hrec := ih f (fun z hz => h z (by simp [hz]))
      simp only [inRangeQty, Bool.and_eq_false_iff] at hy
      by_cases hb : isBareInt (stripChars y) = true
      · have hrange : ¬(1 ≤ natOfDigits (stripChars y) ∧ natOfDigits (stripChars y) ≤ 100) := by
          rcases hy with (hy | hy) | hy
          · rw [hb] at hy; cases hy
          · intro hc; rw [decide_eq_true hc.1] at hy; cases hy
          · intro hc; rw [decide_eq_true hc.2] at hy; cases hy
        simp only [lookQuantity, hb, if_pos, if_neg hrange]
        exact hrec
      · simp only [lookQuantity]
        rw [if_neg (by simpa using hb)]
        exact hrec

/-- The candidate condition of the loop on a stripped line: not noise, and
carrying at least one food keyword. -/
def isMealStart (line : Line) : Bool :=
  !(line.isEmpty || stopWords.contains line) &&
  !(matchDayMonth line || matchYear line || matchDateSlash line) &&
  !hasSubstr (lowerList line) (chars "total") &&
  mealKeywords.any (fun kw => hasSubstr (lowerList line) kw)

/-- A line that carries no food keyword never contributes: the loop just
moves on, whatever the following lines are. -/
lemma extractLoop_skip (l0 : Line) (rest : List Line) (mc : MealMap)
    (h : mealKeywords.any (fun kw => hasSubstr (lowerList (stripChars l0)) kw) = false) :
    extractLoop (l0 :: rest) mc = extractLoop rest mc := by
  simp only [extractLoop_cons, h, Bool.false_eq_true, if_false]
  split_ifs <;> rfl

lemma extractRecords_skip (l0 : Line) (rest : List Line)
    (h : mealKeywords.any (fun kw => hasSubstr (lowerList (stripChars l0)) kw) = false) :
    extractRecords (l0 :: rest) = extractRecords rest := by
  simp only [extractRecords_cons, h, Bool.false_eq_true, if_false]
  split_ifs <;> rfl

/-- The candidate step: on a meal-start line the loop resolves the name
continuation, runs the quantity lookahead over the remaining lines, and
accumulates the record exactly when the quantity is positive. -/
lemma extractLoop_candidate (l0 : Line) (rest : List Line) (mc : MealMap)
    (h : isMealStart (stripChars l0) = true) :
    extractLoop (l0 :: rest) mc =
      (let p := contStep (stripChars l0) rest
       let quantity := lookQuantity p.2 4
       if 0 < quantity then
         extractLoop p.2 (addCount mc (categorize_meal p.1) quantity)
       else
         extractLoop p.2 mc) := by
  simp only [isMealStart, Bool.and_eq_true, Bool.not_eq_true'] at h
  obtain ⟨⟨⟨h1, h2⟩, h3⟩, h4⟩ := h
  simp only [extractLoop_cons]
  rw [if_neg (by rw [h1]; simp), if_neg (by rw [h2]; simp), if_neg (by rw [h3]; simp),
    if_pos h4]

lemma extractRecords_candidate (l0 : Line) (rest : List Line)
    (h : isMealStart (stripChars l0) = true) :
    extractRecords (l0 :: rest) =
      (let p := contStep (stripChars l0) rest
       let quantity := lookQuantity p.2 4
       if 0 < quantity then (p.1, quantity) :: extractRecords p.2
       else extractRecords p.2) := by
  simp only [isMealStart, Bool.and_eq_true, Bool.not_eq_true'] at h
  obtain ⟨⟨⟨h1, h2⟩, h3⟩, h4⟩ := h
  simp only [extractRecords_cons]
  rw [if_neg (by rw [h1]; simp), if_neg (by rw [h2]; simp), if_neg (by rw [h3]; simp),
    if_pos h4]

lemma leadsWith_append (p e t : Line) (h : leadsWith (p ++ e) t = true) :
    leadsWith p t = true := by
  induction p generalizing t with
  | nil => rfl
  | cons a as ih =>
    cases t with
    | nil => simp [leadsWith] at h
    | cons b bs =>
      simp only [List.cons_append, leadsWith, Bool.and_eq_true] at h ⊢
      exact ⟨h.1, ih bs h.2⟩

lemma hasSubstr_append_right (s p e : Line) (h : hasSubstr s (p ++ e) = true) :
    hasSubstr s p = true := by
  induction s with
  | nil => exact leadsWith_append p e [] h
  | cons c t ih =>
    simp only [hasSubstr, Bool.or_eq_true] at h ⊢
    rcases h with h | h
    · exact Or.inl (leadsWith_append p e _ h)
    · exact Or.inr (ih h)

lemma hasSubstr_beefy (s : Line) (h : hasSubstr s (chars "beefy") = true) :
    hasSubstr s (chars "beef") = true := by
  have he : chars "beefy" = chars "beef" ++ chars "y" := by decide
  rw [he] at h
  exact hasSubstr_append_right s (chars "beef") (chars "y") h

/-- The string comparison Python applies to the keys when sorting
`meal_totals.items()`: strict lexicographic order by code point. -/
def lexLt : Line → Line → Bool
  | _, [] => false
  | [], _ :: _ => true
  | a :: as, b :: bs => decide (a < b) || (a == b && lexLt as bs)

/-- The tuple comparison of Python `sorted` on `(key, value)` pairs:
lexicographic on the key string, ties broken by the value. -/
def pairLe (p q : Line × Nat) : Prop :=
  lexLt p.1 q.1 = true ∨ (p.1 = q.1 ∧ p.2 ≤ q.2)

instance : DecidableRel pairLe := fun p q => by unfold pairLe; infer_instance

lemma lexLt_trichotomy : ∀ a b : Line, lexLt a b = true ∨ a = b ∨ lexLt b a = true := by
  intro a
  induction a with
  | nil => intro b; cases b <;> simp [lexLt]
  | cons x xs ih =>
    intro b
    cases b with
    | nil => simp [lexLt]
    | cons y ys =>
      rcases lt_trichotomy x y with h | h | h
      · left; simp [lexLt, h]
      · subst h
        rcases ih ys with h2 | h2 | h2
        · left; simp [lexLt, h2]
        · right; left; rw [h2]
        · right; right; simp [lexLt, h2]
      · right; right; simp [lexLt, h]

lemma lexLt_trans : ∀ a b c : Line, lexLt a b = true → lexLt b c = true →
    lexLt a c = true := by
  intro a
  induction a with
  | nil =>
    intro b c hab hbc
    cases c with
    | nil => cases b <;> simp [lexLt] at hbc
    | cons z zs => simp [lexLt]
  | cons x xs ih =>
    intro b c hab hbc
    cases b with
    | nil => simp [lexLt] at hab
    | cons y ys =>
      cases c with
      | nil => simp [lexLt] at hbc
      | cons z zs =>
        simp only [lexLt, Bool.or_eq_true, Bool.and_eq_true, decide_eq_true_eq,
          beq_iff_eq] at hab hbc ⊢
        rcases hab with h1 | ⟨he1, h1⟩ <;> rcases hbc with h2 | ⟨he2, h2⟩
        · exact Or.inl (lt_trans h1 h2)
        · exact Or.inl (by rw [← he2]; exact h1)
        · exact Or.inl (by rw [he1]; exact h2)
        · exact Or.inr ⟨he1.trans he2, ih ys zs h1 h2⟩

instance : IsTrans (Line × Nat) pairLe := by
  constructor
  intro p q r hpq hqr
  rcases hpq with h1 | ⟨e1, l1⟩ <;> rcases hqr with h2 | ⟨e2, l2⟩
  · exact Or.inl (lexLt_trans _ _ _ h1 h2)
  · exact Or.inl (by rw [← e2]; exact h1)
  · exact Or.inl (by rw [e1]; exact h2)
  · exact Or.inr ⟨e1.trans e2, le_trans l1 l2⟩

instance : IsTotal (Line × Nat) pairLe := by
  constructor
  intro p q
  rcases lexLt_trichotomy p.1 q.1 with h | h | h
  · exact Or.inl (Or.inl h)
  · rcases Nat.le_total p.2 q.2 with h2 | h2
    · exact Or.inl (Or.inr ⟨h, h2⟩)
    · exact Or.inr (Or.inr ⟨h.symm, h2⟩)
  · exact Or.inr (Or.inl h)

/-- A `FreeText` annotation rectangle plus its text, as built by
`add_totals_to_page` (the fixed style options carry no data). -/
structure AnnotBlock where
  xLeft : ℚ
  yTop : ℚ
  xRight : ℚ
  yBottom : ℚ
  text : Line
deriving DecidableEq

/-- Decimal rendering of a quantity, as Python string interpolation does. -/
def natChars (n : Nat) : Line := (Nat.repr n).data

/-- The text of one total line: `f"{meal_type} Total: {total}"`. -/
def totalText (p : Line × Nat) : Line := p.1 ++ chars " Total: " ++ natChars p.2

/-- `MealCounter.add_totals_to_page`, source lines 83-126: sort the totals,
then stack one centered block per category, 22 units tall, starting
`90 + n * 22` units above the bottom edge. Python `sorted` is modelled by
`List.insertionSort` under the tuple order `pairLe`; the float constants are
modelled as exact rationals. -/
def add_totals_to_page (page_width page_height : ℚ) (meal_totals : MealMap) :
    List AnnotBlock :=
  let sorted_meals := List.insertionSort pairLe meal_totals
  let line_height : ℚ := 22
  let start_y : ℚ := page_height - 90 - (sorted_meals.length : ℚ) * line_height
  sorted_meals.enum.map fun ip =>
    let text := totalText ip.2
    let y_top := start_y + (ip.1 : ℚ) * line_height
    let y_bottom := y_top + line_height
    let text_width : ℚ := (text.length : ℚ) * 9.6
    let x_left := (page_width - text_width) / 2
    let x_right := x_left + text_width
    ⟨x_left, y_top, x_right, y_bottom, text⟩

/-- A page: its text lines and its bounding-box dimensions. -/
structure Page where
  lines : List Line
  width : ℚ
  height : ℚ

/-- The per-page phase of `MealCounter.process_pdf`, source lines 135-141:
extract each page's totals and annotate exactly the pages whose mapping is
non-empty; the result lists each page's annotation blocks ([] when the page
is left unmodified). -/
def process_pdf (doc : List Page) : List (List AnnotBlock) :=
  doc.map fun page =>
    let meal_totals := extract_meals_from_page page.lines
    if meal_totals.isEmpty then [] else
      add_totals_to_page page.width page.height meal_totals

/-- C1: on a candidate line carrying a food keyword, a record is contributed
iff one of the 4 lines following the (possibly continuation-extended) name
line is, after trimming, a bare integer in `[1,100]`; its quantity is the
value of the first such line, bare integers out of range before it are
skipped, and with no in-range integer in the window no record is produced. -/
theorem extract_quantity_window_spec (l0 : Line) (rest : List Line) (mc : MealMap)
    (h : isMealStart (stripChars l0) = true) :
    (∀ pre : List Line, ∀ x : Line, ∀ suf : List Line,
       (contStep (stripChars l0) rest).2 = pre ++ x :: suf →
       pre.length ≤ 3 → (∀ y ∈ pre, inRangeQty y = false) → inRangeQty x = true →
       0 < qtyVal x ∧
       extractLoop (l0 :: rest) mc =
         extractLoop (contStep (stripChars l0) rest).2
           (addCount mc (categorize_meal (contStep (stripChars l0) rest).1) (qtyVal x)))
    ∧ ((∀ y ∈ (contStep (stripChars l0) rest).2.take 4, inRangeQty y = false) →
       extractLoop (l0 :: rest) mc = extractLoop (contStep (stripChars l0) rest).2 mc) := by
  constructor
  · intro pre x suf hsplit hlen hpre hx
    have hval : lookQuantity (contStep (stripChars l0) rest).2 4 = qtyVal x := by
      rw [hsplit]
      exact lookQuantity_first pre x suf 4 (by omega) hpre hx
    have hpos := inRangeQty_pos x hx
    refine ⟨hpos, ?_⟩
    rw [extractLoop_candidate l0 rest mc h]
    simp only [hval]
    rw [if_pos hpos]
  · intro hnone
    have hval : lookQuantity (contStep (stripChars l0) rest).2 4 = 0 :=
      lookQuantity_none _ 4 hnone
    rw [extractLoop_candidate l0 rest mc h]
    simp only [hval]
    simp

theorem extract_quantity_window_spec_witness :
    0 < qtyVal (chars "7") ∧
    extractLoop [chars "Fish Fillet", chars "Grade", chars "200", chars "7"] [] =
      extractLoop
        (contStep (stripChars (chars "Fish Fillet"))
          [chars "Grade", chars "200", chars "7"]).2
        (addCount []
          (categorize_meal (contStep (stripChars (chars "Fish Fillet"))
            [chars "Grade", chars "200", chars "7"]).1)
          (qtyVal (chars "7"))) :=
  (extract_quantity_window_spec (chars "Fish Fillet")
      [chars "Grade", chars "200", chars "7"] [] (by decide)).1
    [chars "Grade", chars "200"] (chars "7") [] (by decide) (by decide)
    (by decide) (by decide)

/-- C2 counterexample: a name containing both a chicken and a fish token but
also a beef token resolves to the Beef category, refuting the claim that
every name containing both is mapped to the Chicken category. -/
theorem categorize_chicken_fish_counterexample :
    hasSubstr (lowerList (chars "Beef Chicken Fish Bake")) (chars "chicken") = true ∧
    hasSubstr (lowerList (chars "Beef Chicken Fish Bake")) (chars "fish") = true ∧
    categorize_meal (chars "Beef Chicken Fish Bake") ≠ chars "Chicken Meal" := by
  refine ⟨by decide, by decide, by decide⟩

/-- C2 amended: `categorize_meal` is total and applies the fixed priority
order Beef (beef/beefy), Lentil, Chicken, Vegetarian (vegetarian/veggie),
Fish, falling back to the trimmed original name; every name containing
'beef' and 'fish' maps to Beef Meal, and every name containing 'chicken' and
'fish' but neither 'beef' nor 'lentil' maps to Chicken Meal. -/
theorem categorize_priority_spec (name : Line) :
    (hasSubstr (lowerList name) (chars "beef") = true ∨
        hasSubstr (lowerList name) (chars "beefy") = true →
      categorize_meal name = chars "Beef Meal") ∧
    (hasSubstr (lowerList name) (chars "beef") = false →
      hasSubstr (lowerList name) (chars "beefy") = false →
      hasSubstr (lowerList name) (chars "lentil") = true →
      categorize_meal name = chars "Lentil Meal") ∧
    (hasSubstr (lowerList name) (chars "beef") = false →
      hasSubstr (lowerList name) (chars "beefy") = false →
      hasSubstr (lowerList name) (chars "lentil") = false →
      hasSubstr (lowerList name) (chars "chicken") = true →
      categorize_meal name = chars "Chicken Meal") ∧
    (hasSubstr (lowerList name) (chars "beef") = false →
      hasSubstr (lowerList name) (chars "beefy") = false →
      hasSubstr (lowerList name) (chars "lentil") = false →
      hasSubstr (lowerList name) (chars "chicken") = false →
      hasSubstr (lowerList name) (chars "vegetarian") = true ∨
        hasSubstr (lowerList name) (chars "veggie") = true →
      categorize_meal name = chars "Vegetarian Meal") ∧
    (hasSubstr (lowerList name) (chars "beef") = false →
      hasSubstr (lowerList name) (chars "beefy") = false →
      hasSubstr (lowerList name) (chars "lentil") = false →
      hasSubstr (lowerList name) (chars "chicken") = false →
      hasSubstr (lowerList name) (chars "vegetarian") = false →
      hasSubstr (lowerList name) (chars "veggie") = false →
      hasSubstr (lowerList name) (chars "fish") = true →
      categorize_meal name = chars "Fish Meal") ∧
    (hasSubstr (lowerList name) (chars "beef") = false →
      hasSubstr (lowerList name) (chars "beefy") = false →
      hasSubstr (lowerList name) (chars "lentil") = false →
      hasSubstr (lowerList name) (chars "chicken") = false →
      hasSubstr (lowerList name) (chars "vegetarian") = false →
      hasSubstr (lowerList name) (chars "veggie") = false →
      hasSubstr (lowerList name) (chars "fish") = false →
      categorize_meal name = stripChars name) ∧
    (hasSubstr (lowerList name) (chars "beef") = true →
      hasSubstr (lowerList name) (chars "fish") = true →
      categorize_meal name = chars "Beef Meal") ∧
    (hasSubstr (lowerList name) (chars "beef") = false →
      hasSubstr (lowerList name) (chars "lentil") = false →
      hasSubstr (lowerList name) (chars "chicken") = true →
      hasSubstr (lowerList name) (chars "fish") = true →
      categorize_meal name = chars "Chicken Meal") := by
  refine ⟨?_, ?_, ?_, ?_, ?_, ?_, ?_, ?_⟩
  · rintro (h | h) <;> simp [categorize_meal, h]
  · intro h1 h2 h3; simp [categorize_meal, h1, h2, h3]
  · intro h1 h2 h3 h4; simp [categorize_meal, h1, h2, h3, h4]
  · rintro h1 h2 h3 h4 (h5 | h5) <;> simp [categorize_meal, h1, h2, h3, h4, h5]
  · intro h1 h2 h3 h4 h5 h6 h7; simp [categorize_meal, h1, h2, h3, h4, h5, h6, h7]
  · intro h1 h2 h3 h4 h5 h6 h7; simp [categorize_meal, h1, h2, h3, h4, h5, h6, h7]
  · intro h1 h2; simp [categorize_meal, h1]
  · intro h1 h2 h3 h4
    have h1b : hasSubstr (lowerList name) (chars "beefy") = false := by
      by_contra hby
      rw [hasSubstr_beefy _ (by simpa using hby)] at h1
      cases h1
    simp [categorize_meal, h1, h1b, h2, h3]

theorem categorize_priority_spec_witness :
    categorize_meal (chars "Beef Fish Stew") = chars "Beef Meal" ∧
    categorize_meal (chars "Chicken Fish Pie") = chars "Chicken Meal" :=
  ⟨(categorize_priority_spec (chars "Beef Fish Stew")).2.2.2.2.2.2.1
      (by decide) (by decide),
   (categorize_priority_spec (chars "Chicken Fish Pie")).2.2.2.2.2.2.2
      (by decide) (by decide) (by decide) (by decide)⟩

/-- C5: a continuation line that equals a stop-word is never merged into the
name (the quantity window still starts at it), a following line satisfying
the continuation condition is merged space-joined into the name, and exactly
one line is ever merged: the loop then continues past that single line. -/
theorem continuation_stopword_spec (l0 n0 : Line) (rest : List Line) (mc : MealMap)
    (h : isMealStart (stripChars l0) = true) :
    (stripChars n0 ∈ contStopWords →
      contStep (stripChars l0) (n0 :: rest) = (stripChars l0, n0 :: rest) ∧
      extractLoop (l0 :: n0 :: rest) mc =
        (let quantity := lookQuantity (n0 :: rest) 4
         if 0 < quantity then
           extractLoop (n0 :: rest)
             (addCount mc (categorize_meal (stripChars l0)) quantity)
         else extractLoop (n0 :: rest) mc)) ∧
    (contOk (stripChars n0) = true →
      contStep (stripChars l0) (n0 :: rest) =
        (stripChars l0 ++ ' ' :: stripChars n0, rest) ∧
      extractLoop (l0 :: n0 :: rest) mc =
        (let quantity := lookQuantity rest 4
         if 0 < quantity then
           extractLoop rest
             (addCount mc (categorize_meal (stripChars l0 ++ ' ' :: stripChars n0))
               quantity)
         else extractLoop rest mc)) := by
  constructor
  · intro hmem
    have hc : contStopWords.contains (stripChars n0) = true := List.elem_iff.mpr hmem
    have hcont : contOk (stripChars n0) = false := by simp [contOk, hmem]
    have hcs : contStep (stripChars l0) (n0 :: rest) = (stripChars l0, n0 :: rest) := by
      simp [contStep, hcont]
    refine ⟨hcs, ?_⟩
    rw [extractLoop_candidate l0 (n0 :: rest) mc h, hcs]
  · intro hcont
    have hcs : contStep (stripChars l0) (n0 :: rest) =
        (stripChars l0 ++ ' ' :: stripChars n0, rest) := by
      simp [contStep, hcont]
    refine ⟨hcs, ?_⟩
    rw [extractLoop_candidate l0 (n0 :: rest) mc h, hcs]

theorem continuation_stopword_spec_witness :
    stripChars (chars "Grade") ∈ contStopWords ∧
    contStep (stripChars (chars "Fish Fillet")) [chars "Grade", chars "7"] =
      (stripChars (chars "Fish Fillet"), [chars "Grade", chars "7"]) ∧
    extractLoop [chars "Fish Fillet", chars "Grade", chars "7"] [] =
      (let quantity := lookQuantity [chars "Grade", chars "7"] 4
       if 0 < quantity then
         extractLoop [chars "Grade", chars "7"]
           (addCount [] (categorize_meal (stripChars (chars "Fish Fillet"))) quantity)
       else extractLoop [chars "Grade", chars "7"] []) :=
  ⟨by decide,
   (continuation_stopword_spec (chars "Fish Fillet") (chars "Grade") [chars "7"] []
      (by decide)).1 (by decide)⟩

/-- C7: any line containing the substring 'total' (case-insensitively) is
noise: it never starts a meal record, whatever follows it; in particular the
single-line page "Pasta Total" yields an empty mapping and no annotation
blocks. -/
theorem total_line_noise_spec :
    (∀ x : Line, ∀ rest : List Line, ∀ mc : MealMap,
       hasSubstr (lowerList (stripChars x)) (chars "total") = true →
       extractLoop (x :: rest) mc = extractLoop rest mc) ∧
    extract_meals_from_page [chars "Pasta Total"] = [] ∧
    (∀ w h : ℚ, process_pdf [⟨[chars "Pasta Total"], w, h⟩] = [[]]) := by
  refine ⟨?_, by decide, ?_⟩
  · intro x rest mc hx
    simp only [extractLoop_cons, eq_true hx, if_true]
    split_ifs <;> rfl
  · intro w h
    simp [process_pdf, show extract_meals_from_page [chars "Pasta Total"] = [] from
      by decide]

theorem total_line_noise_spec_witness :
    extractLoop [chars "Pasta Total", chars "5"] [] = extractLoop [chars "5"] [] :=
  total_line_noise_spec.1 (chars "Pasta Total") [chars "5"] [] (by decide)

/-- C9: in the page ["Beef Stew", "Grade", "Fish Pie", "5"] the single
bare-integer line "5" supplies the quantity of two distinct records, so its
value is added to both the Beef Meal and the Fish Meal totals. -/
theorem shared_quantity_line_spec :
    extractRecords [chars "Beef Stew", chars "Grade", chars "Fish Pie", chars "5"] =
      [(chars "Beef Stew", 5), (chars "Fish Pie", 5)] ∧
    extract_meals_from_page
        [chars "Beef Stew", chars "Grade", chars "Fish Pie", chars "5"] =
      [(chars "Beef Meal", 5), (chars "Fish Meal", 5)] ∧
    (([chars "Beef Stew", chars "Grade", chars "Fish Pie", chars "5"].map
        stripChars).filter isBareInt).length = 1 := by
  refine ⟨by decide, by decide, by decide⟩

/-- C10: every value stored in the mapping returned by
`extract_meals_from_page` is at least 1: a key is only ever created or
bumped by a record whose quantity passed the `[1,100]` check. -/
theorem extracted_totals_positive (lines : List Line) (p : Line × Nat)
    (hp : p ∈ extract_meals_from_page lines) : 1 ≤ p.2 := by
  unfold extract_meals_from_page at hp
  rw [extractLoop_eq_foldl] at hp
  exact pos_foldl _ (extractRecords_pos lines) [] (by simp) p hp

theorem extracted_totals_positive_witness :
    1 ≤ ((chars "Beef Meal", 12) : Line × Nat).2 :=
  extracted_totals_positive [chars "Beefy Stew", chars "12"]
    (chars "Beef Meal", 12) (by decide)

/-- C3: the page mapping has pairwise-distinct category keys, the value at
each key is the sum of the quantities of the page's records whose category is
that key, and a key is present exactly when some record contributes to it
(categories with no contribution are absent, i.e. count as zero). -/
theorem page_totals_aggregation_spec (lines : List Line) (k : Line) :
    ((extract_meals_from_page lines).map Prod.fst).Nodup ∧
    valueAt (extract_meals_from_page lines) k = contrib (extractRecords lines) k ∧
    (k ∈ (extract_meals_from_page lines).map Prod.fst ↔
      ∃ r ∈ extractRecords lines, categorize_meal r.1 = k) := by
  unfold extract_meals_from_page
  rw [extractLoop_eq_foldl]
  refine ⟨nodup_fst_foldl _ _ (by simp), ?_, ?_⟩
  · rw [valueAt_foldl]; simp
  · rw [mem_fst_foldl]; simp

/-- A block of lines parses independently: running the loop over it followed
by anything equals running it alone and carrying the accumulator on. This is
the "kept adjacent to its own continuation and quantity lines" condition. -/
def selfContained (blk : List Line) : Prop :=
  ∀ t : List Line, ∀ mc : MealMap,
    extractLoop (blk ++ t) mc = extractLoop t (extractLoop blk mc)

lemma selfContained_nil : selfContained [] := fun _ _ => rfl

/-- Equality of accumulators as Python dict equality: same key set and same
value at every key. -/
def mapEquiv (m1 m2 : MealMap) : Prop :=
  (∀ k : Line, k ∈ m1.map Prod.fst ↔ k ∈ m2.map Prod.fst) ∧
  (∀ k : Line, valueAt m1 k = valueAt m2 k)

lemma valueAt_extractLoop (L : List Line) (mc : MealMap) (k : Line) :
    valueAt (extractLoop L mc) k = valueAt mc k + contrib (extractRecords L) k := by
  rw [extractLoop_eq_foldl, valueAt_foldl]

lemma mem_fst_extractLoop (L : List Line) (mc : MealMap) (a : Line) :
    a ∈ (extractLoop L mc).map Prod.fst ↔
      a ∈ mc.map Prod.fst ∨ ∃ r ∈ extractRecords L, categorize_meal r.1 = a := by
  rw [extractLoop_eq_foldl]
  exact mem_fst_foldl _ _ _

/-- C6: swapping two non-adjacent candidate blocks (each self-contained with
its own continuation and quantity lines) leaves the page mapping unchanged as
a mapping: same keys, same totals. -/
theorem swap_blocks_totals_spec (P A M B S : List Line)
    (hP : selfContained P) (hA : selfContained A) (hM : selfContained M)
    (hB : selfContained B) :
    mapEquiv (extract_meals_from_page (P ++ A ++ M ++ B ++ S))
      (extract_meals_from_page (P ++ B ++ M ++ A ++ S)) := by
  have e1 : extract_meals_from_page (P ++ A ++ M ++ B ++ S) =
      extractLoop S (extractLoop B (extractLoop M (extractLoop A (extractLoop P [])))) := by
    unfold extract_meals_from_page
    simp only [List.append_assoc]
    rw [hP, hA, hM, hB]
  have e2 : extract_meals_from_page (P ++ B ++ M ++ A ++ S) =
      extractLoop S (extractLoop A (extractLoop M (extractLoop B (extractLoop P [])))) := by
    unfold extract_meals_from_page
    simp only [List.append_assoc]
    rw [hP, hB, hM, hA]
  rw [e1, e2]
  constructor
  · intro a
    simp only [mem_fst_extractLoop, List.map_nil, List.not_mem_nil, false_or]
    generalize (∃ r ∈ extractRecords P, categorize_meal r.1 = a) = EP
    generalize (∃ r ∈ extractRecords A, categorize_meal r.1 = a) = EA
    generalize (∃ r ∈ extractRecords M, categorize_meal r.1 = a) = EM
    generalize (∃ r ∈ extractRecords B, categorize_meal r.1 = a) = EB
    generalize (∃ r ∈ extractRecords S, categorize_meal r.1 = a) = ES
    tauto
  · intro k
    simp only [valueAt_extractLoop, valueAt_nil]
    omega

/-- A candidate line followed directly by its in-range quantity line (which
itself carries no food keyword) forms a self-contained block. -/
lemma selfContained_pair (n q : Line)
    (hn : isMealStart (stripChars n) = true)
    (hq : inRangeQty q = true)
    (hqk : mealKeywords.any (fun kw => hasSubstr (lowerList (stripChars q)) kw) = false) :
    selfContained [n, q] := by
  intro t mc
  have hb : isBareInt (stripChars q) = true := by
    simp only [inRangeQty, Bool.and_eq_true] at hq
    exact hq.1.1
  have hcont : contOk (stripChars q) = false := by simp [contOk, hb]
  have hpos := inRangeQty_pos q hq
  have hcs : ∀ r : List Line, contStep (stripChars n) (q :: r) = (stripChars n, q :: r) := by
    intro r
    simp [contStep, hcont]
  have hlook : ∀ r : List Line, lookQuantity (q :: r) 4 = qtyVal q := fun r =>
    lookQuantity_first [] q r 4 (by simp) (by simp) hq
  have hLHS : extractLoop ([n, q] ++ t) mc =
      extractLoop t (addCount mc (categorize_meal (stripChars n)) (qtyVal q)) := by
    show extractLoop (n :: q :: t) mc = _
    rw [extractLoop_candidate n (q :: t) mc hn]
    simp only [hcs, hlook]
    rw [if_pos hpos]
    exact extractLoop_skip q t _ hqk
  have hRHS : extractLoop [n, q] mc =
      addCount mc (categorize_meal (stripChars n)) (qtyVal q) := by
    rw [extractLoop_candidate n [q] mc hn]
    simp only [hcs, hlook]
    rw [if_pos hpos]
    exact (extractLoop_skip q [] _ hqk).trans (extractLoop_nil _)
  rw [hLHS, hRHS]

theorem swap_blocks_totals_spec_witness :
    mapEquiv
      (extract_meals_from_page ([] ++ [chars "Beefy Stew", chars "12"] ++
        [chars "Chicken Pie", chars "4"] ++ [chars "Lentil Soup", chars "8"] ++
        [chars "Veggie Bowl", chars "3"]))
      (extract_meals_from_page ([] ++ [chars "Lentil Soup", chars "8"] ++
        [chars "Chicken Pie", chars "4"] ++ [chars "Beefy Stew", chars "12"] ++
        [chars "Veggie Bowl", chars "3"])) :=
  swap_blocks_totals_spec [] [chars "Beefy Stew", chars "12"]
    [chars "Chicken Pie", chars "4"] [chars "Lentil Soup", chars "8"]
    [chars "Veggie Bowl", chars "3"]
    selfContained_nil
    (selfContained_pair _ _ (by decide) (by decide) (by decide))
    (selfContained_pair _ _ (by decide) (by decide) (by decide))
    (selfContained_pair _ _ (by decide) (by decide) (by decide))

/-- C8: pages whose extracted mapping is empty get no annotation blocks and
are left unmodified, while every other page of the document is still
processed and annotated. -/
theorem process_pdf_empty_page_spec (doc : List Page) (i : Nat) (pg : Page)
    (hi : doc.get? i = some pg) :
    (process_pdf doc).length = doc.length ∧
    (extract_meals_from_page pg.lines = [] →
      (process_pdf doc).get? i = some []) ∧
    (extract_meals_from_page pg.lines ≠ [] →
      (process_pdf doc).get? i =
        some (add_totals_to_page pg.width pg.height
          (extract_meals_from_page pg.lines))) := by
  refine ⟨by simp [process_pdf], ?_, ?_⟩
  · intro hempty
    unfold process_pdf
    rw [List.get?_map, hi]
    simp only [Option.map_some']
    rw [if_pos (by simp [hempty])]
  · intro hne
    unfold process_pdf
    rw [List.get?_map, hi]
    simp only [Option.map_some']
    rw [if_neg (by simp [List.isEmpty_iff, hne])]

theorem process_pdf_empty_page_spec_witness :
    (process_pdf [⟨[chars "Pasta Total"], 600, 800⟩]).get? 0 = some [] :=
  (process_pdf_empty_page_spec [⟨[chars "Pasta Total"], 600, 800⟩] 0
    ⟨[chars "Pasta Total"], 600, 800⟩ rfl).2.1 (by decide)

lemma add_totals_get? (w h : ℚ) (m : MealMap) (i : Nat) :
    (add_totals_to_page w h m).get? i =
      ((List.insertionSort pairLe m).get? i).map fun p =>
        ⟨(w - ((totalText p).length : ℚ) * 9.6) / 2,
         h - 90 - (m.length : ℚ) * 22 + (i : ℚ) * 22,
         (w - ((totalText p).length : ℚ) * 9.6) / 2 +
           ((totalText p).length : ℚ) * 9.6,
         h - 90 - (m.length : ℚ) * 22 + (i : ℚ) * 22 + 22,
         totalText p⟩ := by
  unfold add_totals_to_page
  simp only [List.get?_map, List.get?_enum, Option.map_map, List.length_insertionSort]
  cases hs : (List.insertionSort pairLe m).get? i
  · rfl
  · simp only [Option.map_some', Function.comp]

/-- C4: for a totals mapping with `n` entries, the layout yields exactly one
block per category in lexicographically sorted order; block `i` spans
`y_top = page_height - 90 - n*22 + i*22` to `y_bottom = y_top + 22` with text
`"<Category> Total: <sum>"` centered via `x_left = (w - 9.6*len)/2`,
`x_right = x_left + 9.6*len`; consecutive blocks abut, the last block ends at
`page_height - 90`, and when `90 + n*22 ≤ page_height` every block's y-range
lies inside `[0, page_height]`. -/
theorem add_totals_layout_spec (m : MealMap) (w h : ℚ)
    (hne : m ≠ []) (hnd : (m.map Prod.fst).Nodup) :
    (add_totals_to_page w h m).length = m.length ∧
    (List.insertionSort pairLe m).Perm m ∧
    List.Sorted pairLe (List.insertionSort pairLe m) ∧
    ((List.insertionSort pairLe m).map Prod.fst).Nodup ∧
    (∀ i : Nat, ∀ p : Line × Nat, (List.insertionSort pairLe m).get? i = some p →
      (add_totals_to_page w h m).get? i =
        some ⟨(w - ((totalText p).length : ℚ) * 9.6) / 2,
              h - 90 - (m.length : ℚ) * 22 + (i : ℚ) * 22,
              (w - ((totalText p).length : ℚ) * 9.6) / 2 +
                ((totalText p).length : ℚ) * 9.6,
              h - 90 - (m.length : ℚ) * 22 + (i : ℚ) * 22 + 22,
              totalText p⟩) ∧
    (∀ i : Nat, ∀ b b' : AnnotBlock, (add_totals_to_page w h m).get? i = some b →
      (add_totals_to_page w h m).get? (i + 1) = some b' → b.yBottom = b'.yTop) ∧
    (∀ b : AnnotBlock, (add_totals_to_page w h m).get? (m.length - 1) = some b →
      b.yBottom = h - 90) ∧
    (90 + (m.length : ℚ) * 22 ≤ h →
      ∀ b ∈ add_totals_to_page w h m,
        0 ≤ b.yTop ∧ b.yTop < b.yBottom ∧ b.yBottom ≤ h) := by
  have hperm := List.perm_insertionSort pairLe m
  refine ⟨?_, hperm, List.sorted_insertionSort pairLe m, ?_, ?_, ?_, ?_, ?_⟩
  · simp [add_totals_to_page, List.length_insertionSort, List.enum_length]
  · exact ((hperm.map Prod.fst).nodup_iff).mpr hnd
  · intro i p hp
    rw [add_totals_get?, hp, Option.map_some']
  · intro i b b' hb hb'
    rw [add_totals_get?] at hb hb'
    obtain ⟨p, hp, hbp⟩ := Option.map_eq_some'.mp hb
    obtain ⟨q, hq, hbq⟩ := Option.map_eq_some'.mp hb'
    rw [← hbp, ← hbq]
    show (h - 90 - (m.length : ℚ) * 22 + (i : ℚ) * 22 + 22 : ℚ) =
      h - 90 - (m.length : ℚ) * 22 + ((i + 1 : Nat) : ℚ) * 22
    push_cast
    ring
  · intro b hb
    rw [add_totals_get?] at hb
    obtain ⟨p, hp, hbp⟩ := Option.map_eq_some'.mp hb
    have hlen : 1 ≤ m.length := List.length_pos.mpr hne
    rw [← hbp]
    show (h - 90 - (m.length : ℚ) * 22 + ((m.length - 1 : Nat) : ℚ) * 22 + 22 : ℚ) =
      h - 90
    rw [Nat.cast_sub hlen]
    push_cast
    ring
  · intro hh b hb
    obtain ⟨i, hget⟩ := List.mem_iff_get?.mp hb
    rw [add_totals_get?] at hget
    obtain ⟨p, hp, hbp⟩ := Option.map_eq_some'.mp hget
    have hi : i < m.length := by
      obtain ⟨hlt, _⟩ := List.get?_eq_some.mp hp
      rw [List.length_insertionSort] at hlt
      exact hlt
    have hcast : (i : ℚ) + 1 ≤ (m.length : ℚ) := by exact_mod_cast hi
    have hi0 : (0 : ℚ) ≤ (i : ℚ) := Nat.cast_nonneg i
    rw [← hbp]
    refine ⟨?_, ?_, ?_⟩
    · show (0 : ℚ) ≤ h - 90 - (m.length : ℚ) * 22 + (i : ℚ) * 22
      linarith
    · show (h - 90 - (m.length : ℚ) * 22 + (i : ℚ) * 22 : ℚ) <
        h - 90 - (m.length : ℚ) * 22 + (i : ℚ) * 22 + 22
      linarith
    · show (h - 90 - (m.length : ℚ) * 22 + (i : ℚ) * 22 + 22 : ℚ) ≤ h
      linarith

theorem add_totals_layout_spec_witness :
    (add_totals_to_page 600 800
        [(chars "Beef Meal", 12), (chars "Lentil Meal", 8)]).length =
      ([(chars "Beef Meal", 12), (chars "Lentil Meal", 8)] : MealMap).length ∧
    (List.insertionSort pairLe
        [(chars "Beef Meal", 12), (chars "Lentil Meal", 8)]).Perm
      [(chars "Beef Meal", 12), (chars "Lentil Meal", 8)] :=
  ⟨(add_totals_layout_spec [(chars "Beef Meal", 12), (chars "Lentil Meal", 8)]
      600 800 (by decide) (by decide)).1,
   (add_totals_layout_spec [(chars "Beef Meal", 12), (chars "Lentil Meal", 8)]
      600 800 (by decide) (by decide)).2.1⟩
